import Mathlib

/-!
Verification of the binary tree library in `src/binary tree/`.

The repository contains two near-identical copies of a templated C++ class
`BinaryTree<T>` (in `BinaryTree.h` and `BinaryTree.cpp`).  The element type
is modelled as `Int` (the test harness instantiates `T = int`).  Trees are
linked nodes (`BTNode`): a null pointer is `BTree.nil`, a node holds an
element and two child pointers.

Caller-provided flat buffers (`T *elements`) are modelled as total functions
`Nat → Int`; a freshly allocated `new T[n]` buffer has arbitrary
(uninitialized) contents, so it appears as a universally quantified buffer
parameter.  The `max` cutoff of `to_flat_array` is an `int` in C++ and is
modelled as `Int` (it may be negative).  Array indices are `Nat`.
-/

/-- Model of `BTNode<T>` pointers: `nil` is the null pointer, `node e l r`
a node with element `e` and child pointers `l`, `r`. -/
inductive BTree where
  | nil : BTree
  | node : Int → BTree → BTree → BTree
deriving DecidableEq

open BTree

/-- Model of `BTNode::is_leaf` (`BinaryTree.h` line 32): both child pointers
are null.  `is_leaf` is a member of `BTNode`, so the `nil` case never arises
in the source; it is mapped to `false`. -/
def is_leaf : BTree → Bool
  | nil => false
  | node _ l r => decide (l = nil) && decide (r = nil)

/-- Model of `BinaryTree::node_count` helper (`BinaryTree.h` lines 242-248). -/
def node_count : BTree → Nat
  | nil => 0
  | node _ l r => 1 + node_count l + node_count r

/-- Model of `BinaryTree::height` helper (`BinaryTree.h` lines 258-274):
0 for null, 1 for a leaf, otherwise the larger of `height(left) + 1` and
`height(right) + 1`. -/
def height : BTree → Nat
  | nil => 0
  | node v l r =>
      if is_leaf (node v l r) then 1
      else if height l + 1 > height r + 1 then height l + 1 else height r + 1

/-- Model of `BinaryTree::leaf_count` helper (`BinaryTree.h` lines 276-285). -/
def leaf_count : BTree → Nat
  | nil => 0
  | node v l r =>
      if is_leaf (node v l r) then 1 else leaf_count l + leaf_count r

/-- Model of the recursive helper `BinaryTree::init_complete(T*, int, int)`
(`BinaryTree.h` lines 209-223): the node at array position `i` is absent
when `i > n`, otherwise it holds `elements[i]` and children built at `2i`
and `2i + 1`.  The source is only ever invoked with `i ≥ 1` (the wrapper
starts at index 1 and both child indices of a positive index are positive);
the `1 ≤ i` guard makes that unreachable `i = 0` case total in Lean. -/
def init_complete_aux (f : Nat → Int) (n : Nat) (i : Nat) : BTree :=
  if h : 1 ≤ i ∧ i ≤ n then
    node (f i) (init_complete_aux f n (2 * i)) (init_complete_aux f n (2 * i + 1))
  else nil
termination_by n + 1 - i
decreasing_by all_goals omega

/-- Model of `BinaryTree::init_complete(T*, int)` (`BinaryTree.h` lines
200-207), which is also the array constructor (lines 190-198): build from
the root index 1. -/
def init_complete (f : Nat → Int) (n : Nat) : BTree :=
  init_complete_aux f n 1

/-- Writing one cell of a flat buffer (`elements[index] = node->elem`). -/
def updBuf (buf : Nat → Int) (i : Nat) (v : Int) : Nat → Int :=
  fun j => if j = i then v else buf j

/-- Model of the recursive helper `BinaryTree::to_flat_array(T*, int,
BTNode*, int, int&)` (`BinaryTree.h` lines 340-370).  The state threads the
buffer and the by-reference `max_index`.  A null node leaves the state
unchanged; otherwise `max_index` is raised to `index` if smaller, the
element is written when `index <= max`, and both children are visited
(left first) even past the cutoff. -/
def to_flat_array_aux (max : Int) : BTree → Nat → ((Nat → Int) × Nat) → ((Nat → Int) × Nat)
  | nil, _, s => s
  | node v l r, i, (buf, mi) =>
      let mi2 := if i > mi then i else mi
      let buf2 := if (i : Int) ≤ max then updBuf buf i v else buf
      to_flat_array_aux max r (2 * i + 1) (to_flat_array_aux max l (2 * i) (buf2, mi2))

/-- Model of `BinaryTree::to_flat_array(T*, int)` (`BinaryTree.h` lines
325-338): `max_index` starts at 1, the helper is called on the root at
index 1, and the C++ return value is 0 for an empty tree (the helper's
early return) and the final `max_index` otherwise.  The pair holds the
final buffer and that return value. -/
def to_flat_array (t : BTree) (buf : Nat → Int) (max : Int) : (Nat → Int) × Nat :=
  match t with
  | nil => (buf, 0)
  | node v l r => to_flat_array_aux max (node v l r) 1 (buf, 1)

/-- Model of `BinaryTree::preorder` (`BinaryTree.h` lines 291-299).  The
C++ visitor `void (*f)(const T&)` acts by side effects; it is modelled as a
state transformer `f : Int → σ → σ` threaded in the source's call order:
visit the node, then the left subtree, then the right subtree. -/
def preorder {σ : Type} (f : Int → σ → σ) : BTree → σ → σ
  | nil, s => s
  | node v l r, s => preorder f r (preorder f l (f v s))

/-- Model of `BinaryTree::inorder` (`BinaryTree.h` lines 301-309): left
subtree, node, right subtree. -/
def inorder {σ : Type} (f : Int → σ → σ) : BTree → σ → σ
  | nil, s => s
  | node v l r, s => inorder f r (f v (inorder f l s))

/-- Model of `BinaryTree::postorder` (`BinaryTree.h` lines 311-319): left
subtree, right subtree, node. -/
def postorder {σ : Type} (f : Int → σ → σ) : BTree → σ → σ
  | nil, s => s
  | node v l r, s => f v (postorder f r (postorder f l s))

/-- Model of `BinaryTree::compare` (`BinaryTree.cpp` lines 311-320): true
when both pointers are null; when both are non-null with equal elements,
recurse on both child pairs; false otherwise. -/
def compare_trees : BTree → BTree → Bool
  | nil, nil => true
  | node a al ar, node b bl br =>
      if a = b then compare_trees al bl && compare_trees ar br else false
  | _, _ => false

/-- Model of `BinaryTree::operator==` of `BinaryTree.cpp` (lines 258-265):
false when exactly one root is null, otherwise `compare` on the roots. -/
def eqOp_cpp (a b : BTree) : Bool :=
  if (a ≠ nil ∧ b = nil) ∨ (a = nil ∧ b ≠ nil) then false else compare_trees a b

/-- Model of `BinaryTree::operator!=` of `BinaryTree.cpp` (lines 267-271). -/
def neOp_cpp (a b : BTree) : Bool :=
  ! eqOp_cpp a b

/-- Model of the comparison loop `for (i = 1; i <= n; i++) if (a[i] != b[i])
return 0; return 1;` in the `operator==` of `BinaryTree.h`. -/
def allEq (e1 e2 : Nat → Int) : Nat → Bool
  | 0 => true
  | k + 1 => allEq e1 e2 k && decide (e1 (k + 1) = e2 (k + 1))

/-- Model of `BinaryTree::operator==` of `BinaryTree.h` (lines 375-396):
false when the node counts differ; otherwise flatten both trees into
freshly allocated buffers (`bufA`, `bufB` carry the arbitrary contents of
the uninitialized `new T[n+1]` allocations) with `max` equal to the node
count, and compare cells 1..n. -/
def eqOp_h (a b : BTree) (bufA bufB : Nat → Int) : Bool :=
  if node_count a ≠ node_count b then false
  else
    allEq (to_flat_array a bufA (node_count a : Int)).1
      (to_flat_array b bufB (node_count b : Int)).1 (node_count a)

/-- Model of `BinaryTree::operator!=` of `BinaryTree.h` (lines 398-402). -/
def neOp_h (a b : BTree) (bufA bufB : Nat → Int) : Bool :=
  ! eqOp_h a b bufA bufB

/-- Model of the copy constructor of `BinaryTree.h` (lines 225-236): flatten
the source into a fresh `new T[n+1]` buffer (arbitrary initial contents
`buf`) with `max` equal to the source's node count, then rebuild with
`init_complete`. -/
def copy_h (src : BTree) (buf : Nat → Int) : BTree :=
  init_complete ((to_flat_array src buf (node_count src : Int)).1) (node_count src)

/-- Model of `BinaryTree::operator=` of `BinaryTree.h` (lines 404-414): the
old contents of the assigned tree (`old`) are discarded (`root = NULL`)
and the result is rebuilt from the source's flat array exactly as the copy
constructor does. -/
def assign_h (old src : BTree) (buf : Nat → Int) : BTree :=
  init_complete ((to_flat_array src buf (node_count src : Int)).1) (node_count src)

/-- Complete-tree positions (1-based heap indices) of the nodes of a tree
whose root sits at index `i`: the index of a node, then the positions of the
left subtree at `2i` and of the right subtree at `2i + 1`.  This is the
indexing scheme documented in `BinaryTree.h` lines 149-177. -/
def positions : BTree → Nat → List Nat
  | nil, _ => []
  | node _ l r, i => i :: (positions l (2 * i) ++ positions r (2 * i + 1))

/-- Complete-tree positions of the leaves of a tree rooted at index `i`. -/
def leaf_positions : BTree → Nat → List Nat
  | nil, _ => []
  | node v l r, i =>
      if is_leaf (node v l r) then [i]
      else leaf_positions l (2 * i) ++ leaf_positions r (2 * i + 1)

/-- Heap-index descendance: `j` lies in the subtree rooted at index `i`
exactly when repeatedly halving `j` reaches `i`. -/
def desc (i j : Nat) : Prop :=
  ∃ k, j / 2 ^ k = i

/-- Reference preorder sequence, from the spec's words: node, then left
subtree, then right subtree. -/
def preorderSeq : BTree → List Int
  | nil => []
  | node v l r => v :: (preorderSeq l ++ preorderSeq r)

/-- Reference inorder sequence, from the spec's words: left subtree, then
node, then right subtree. -/
def inorderSeq : BTree → List Int
  | nil => []
  | node v l r => inorderSeq l ++ v :: inorderSeq r

/-- Reference postorder sequence, from the spec's words: left subtree, then
right subtree, then node. -/
def postorderSeq : BTree → List Int
  | nil => []
  | node v l r => postorderSeq l ++ postorderSeq r ++ [v]

/-! Basic unfolding lemmas for `init_complete_aux`. -/

/-- Unfolding lemma: an occupied position produces a node. -/
theorem init_aux_node (f : Nat → Int) (n i : Nat) (h1 : 1 ≤ i) (h2 : i ≤ n) :
    init_complete_aux f n i =
      node (f i) (init_complete_aux f n (2 * i)) (init_complete_aux f n (2 * i + 1)) := by
  rw [init_complete_aux]
  simp [h1, h2]

/-- Unfolding lemma: a position past `n` is absent. -/
theorem init_aux_nil (f : Nat → Int) (n i : Nat) (h : n < i) :
    init_complete_aux f n i = nil := by
  rw [init_complete_aux, dif_neg]
  omega

/-- Unfolding lemma: the guard fails, so the result is `nil` (covers the
unreachable `i = 0` case as well). -/
theorem init_aux_nil_of_not (f : Nat → Int) (n i : Nat) (h : ¬(1 ≤ i ∧ i ≤ n)) :
    init_complete_aux f n i = nil := by
  rw [init_complete_aux, dif_neg h]

/-- The build reads the element array only at positions `1..n`. -/
theorem init_aux_congr (f g : Nat → Int) (n i : Nat)
    (hfg : ∀ j, 1 ≤ j → j ≤ n → f j = g j) :
    init_complete_aux f n i = init_complete_aux g n i := by
  by_cases h : 1 ≤ i ∧ i ≤ n
  · rw [init_aux_node f n i h.1 h.2, init_aux_node g n i h.1 h.2,
      hfg i h.1 h.2,
      init_aux_congr f g n (2 * i) hfg, init_aux_congr f g n (2 * i + 1) hfg]
  · rw [init_aux_nil_of_not f n i h, init_aux_nil_of_not g n i h]
termination_by n + 1 - i
decreasing_by all_goals omega

/-! Facts about heap-index descendance. -/

/-- Every index is its own descendant. -/
theorem desc_refl (i : Nat) : desc i i :=
  ⟨0, by simp⟩

/-- A descendant is at least as large as the subtree root. -/
theorem desc_le {i j : Nat} (h : desc i j) : i ≤ j := by
  obtain ⟨k, hk⟩ := h
  subst hk
  exact Nat.div_le_self _ _

/-- Descendants of the left child are descendants of the parent. -/
theorem desc_of_desc_left {i j : Nat} (h : desc (2 * i) j) : desc i j := by
  obtain ⟨k, hk⟩ := h
  refine ⟨k + 1, ?_⟩
  rw [pow_succ, ← Nat.div_div_eq_div_mul, hk]
  omega

/-- Descendants of the right child are descendants of the parent. -/
theorem desc_of_desc_right {i j : Nat} (h : desc (2 * i + 1) j) : desc i j := by
  obtain ⟨k, hk⟩ := h
  refine ⟨k + 1, ?_⟩
  rw [pow_succ, ← Nat.div_div_eq_div_mul, hk]
  omega

/-- A proper descendant descends through one of the two children. -/
theorem desc_split {i j : Nat} (hij : desc i j) (hne : j ≠ i) :
    desc (2 * i) j ∨ desc (2 * i + 1) j := by
  obtain ⟨k, hk⟩ := hij
  cases k with
  | zero => simp at hk; omega
  | succ k =>
      have ha : j / 2 ^ k / 2 = i := by
        rw [Nat.div_div_eq_div_mul, ← pow_succ, hk]
      rcases Nat.lt_or_ge (j / 2 ^ k) (2 * i + 1) with hlt | hge
      · left; exact ⟨k, by omega⟩
      · right; exact ⟨k, by omega⟩

/-- No index descends from both children of the same node. -/
theorem desc_not_both {i j : Nat} (hi : 1 ≤ i)
    (hl : desc (2 * i) j) (hr : desc (2 * i + 1) j) : False := by
  obtain ⟨k1, hk1⟩ := hl
  obtain ⟨k2, hk2⟩ := hr
  have hne : k1 ≠ k2 := by
    intro h; rw [h, hk2] at hk1; omega
  rcases Nat.lt_or_ge k2 k1 with hlt | hge
  · -- k2 < k1: dividing the value at k2 further reaches the value at k1
    have hstep : j / 2 ^ k1 = (j / 2 ^ k2) / 2 ^ (k1 - k2) := by
      rw [Nat.div_div_eq_div_mul, ← pow_add]
      have hexp : k2 + (k1 - k2) = k1 := by omega
      rw [hexp]
    rw [hk2] at hstep
    have hd : (2 * i + 1) / 2 ^ (k1 - k2) ≤ (2 * i + 1) / 2 := by
      have h2 : (2 : Nat) ^ 1 ≤ 2 ^ (k1 - k2) := Nat.pow_le_pow_right (by omega) (by omega)
      calc (2 * i + 1) / 2 ^ (k1 - k2) ≤ (2 * i + 1) / 2 ^ 1 :=
            Nat.div_le_div_left h2 (by positivity)
        _ = (2 * i + 1) / 2 := by norm_num
    have : (2 * i + 1) / 2 = i := by omega
    omega
  · -- k1 < k2 is impossible: it would send the larger right index below the left one
    have hlt2 : k1 < k2 := by omega
    have hstep : j / 2 ^ k2 = (j / 2 ^ k1) / 2 ^ (k2 - k1) := by
      rw [Nat.div_div_eq_div_mul, ← pow_add]
      have hexp : k1 + (k2 - k1) = k2 := by omega
      rw [hexp]
    rw [hk1] at hstep
    have hd : (2 * i) / 2 ^ (k2 - k1) ≤ (2 * i) / 2 := by
      have h2 : (2 : Nat) ^ 1 ≤ 2 ^ (k2 - k1) := Nat.pow_le_pow_right (by omega) (by omega)
      calc (2 * i) / 2 ^ (k2 - k1) ≤ (2 * i) / 2 ^ 1 :=
            Nat.div_le_div_left h2 (by positivity)
        _ = (2 * i) / 2 := by norm_num
    have : (2 * i) / 2 = i := by omega
    omega

/-- Every positive index descends from the root index 1. -/
theorem desc_one {j : Nat} (hj : 1 ≤ j) : desc 1 j := by
  induction j using Nat.strong_induction_on with
  | _ j ih =>
      rcases Nat.lt_or_ge j 2 with h2 | h2
      · have : j = 1 := by omega
        subst this
        exact desc_refl 1
      · obtain ⟨k, hk⟩ := ih (j / 2) (by omega) (by omega)
        refine ⟨k + 1, ?_⟩
        rw [pow_succ', ← Nat.div_div_eq_div_mul]
        exact hk

/-! Positions of the nodes of an array-built tree. -/

/-- Every position recorded for a subtree rooted at index `i` is at least `i`. -/
theorem mem_positions_ge (t : BTree) : ∀ i j, j ∈ positions t i → i ≤ j := by
  induction t with
  | nil => intro i j h; simp [positions] at h
  | node v l r ihl ihr =>
      intro i j h
      simp only [positions, List.mem_cons, List.mem_append] at h
      rcases h with h | h | h
      · omega
      · have := ihl (2 * i) j h; omega
      · have := ihr (2 * i + 1) j h; omega

/-- Membership characterization: the subtree built at index `i ≥ 1` occupies
exactly the heap descendants of `i` that are at most `n`. -/
theorem mem_positions_init (f : Nat → Int) (n i : Nat) (hi : 1 ≤ i) (j : Nat) :
    j ∈ positions (init_complete_aux f n i) i ↔ (desc i j ∧ j ≤ n) := by
  by_cases h : i ≤ n
  · rw [init_aux_node f n i hi h]
    simp only [positions, List.mem_cons, List.mem_append]
    rw [mem_positions_init f n (2 * i) (by omega) j,
        mem_positions_init f n (2 * i + 1) (by omega) j]
    constructor
    · rintro (rfl | ⟨hd, hj⟩ | ⟨hd, hj⟩)
      · exact ⟨desc_refl j, h⟩
      · exact ⟨desc_of_desc_left hd, hj⟩
      · exact ⟨desc_of_desc_right hd, hj⟩
    · rintro ⟨hd, hj⟩
      by_cases hji : j = i
      · left; exact hji
      · rcases desc_split hd hji with h1 | h1
        · right; left; exact ⟨h1, hj⟩
        · right; right; exact ⟨h1, hj⟩
  · rw [init_aux_nil f n i (by omega)]
    simp only [positions, List.not_mem_nil, false_iff]
    rintro ⟨hd, hj⟩
    have := desc_le hd
    omega
termination_by n + 1 - i
decreasing_by all_goals omega

/-- The position list of an array-built subtree has no duplicates. -/
theorem nodup_positions_init (f : Nat → Int) (n i : Nat) (hi : 1 ≤ i) :
    (positions (init_complete_aux f n i) i).Nodup := by
  by_cases h : i ≤ n
  · rw [init_aux_node f n i hi h]
    simp only [positions]
    rw [List.nodup_cons, List.mem_append, List.nodup_append]
    refine ⟨?_, nodup_positions_init f n (2 * i) (by omega),
      nodup_positions_init f n (2 * i + 1) (by omega), ?_⟩
    · rintro (hmem | hmem)
      · have := mem_positions_ge _ _ _ hmem; omega
      · have := mem_positions_ge _ _ _ hmem; omega
    · intro j hjl hjr
      rw [mem_positions_init f n (2 * i) (by omega) j] at hjl
      rw [mem_positions_init f n (2 * i + 1) (by omega) j] at hjr
      exact desc_not_both hi hjl.1 hjr.1
  · rw [init_aux_nil f n i (by omega)]
    simp [positions]
termination_by n + 1 - i
decreasing_by all_goals omega

/-- The number of recorded positions is the node count. -/
theorem length_positions (t : BTree) : ∀ i, (positions t i).length = node_count t := by
  induction t with
  | nil => intro i; simp [positions, node_count]
  | node v l r ihl ihr =>
      intro i
      simp only [positions, node_count, List.length_cons, List.length_append, ihl, ihr]
      omega

/-- The array-built tree with `n` elements occupies exactly positions `1..n`. -/
theorem mem_positions_init_one (f : Nat → Int) (n : Nat) (j : Nat) :
    j ∈ positions (init_complete f n) 1 ↔ (1 ≤ j ∧ j ≤ n) := by
  rw [init_complete, mem_positions_init f n 1 (by omega) j]
  constructor
  · rintro ⟨hd, hj⟩; exact ⟨desc_le hd, hj⟩
  · rintro ⟨h1, hj⟩; exact ⟨desc_one h1, hj⟩

/-- Helper: the node count of the array-built tree is `n`. -/
theorem node_count_init (f : Nat → Int) (n : Nat) :
    node_count (init_complete f n) = n := by
  have hnd : (positions (init_complete f n) 1).Nodup :=
    nodup_positions_init f n 1 (by omega)
  have hfin : (positions (init_complete f n) 1).toFinset = Finset.Icc 1 n := by
    ext j
    rw [List.mem_toFinset, mem_positions_init_one f n j, Finset.mem_Icc]
  have hcard := List.toFinset_card_of_nodup hnd
  rw [hfin, Nat.card_Icc] at hcard
  have hlen := length_positions (init_complete f n) 1
  omega

/-! Behaviour of `to_flat_array`. -/

/-- Unfolding lemma for the flat-array helper at a node. -/
theorem flat_aux_node (mx : Int) (v : Int) (l r : BTree) (i : Nat) (buf : Nat → Int) (mi : Nat) :
    to_flat_array_aux mx (node v l r) i (buf, mi) =
      to_flat_array_aux mx r (2 * i + 1) (to_flat_array_aux mx l (2 * i)
        ((if (i : Int) ≤ mx then updBuf buf i v else buf), (if i > mi then i else mi))) :=
  rfl

/-- Frame property of the helper: a cell that is not an occupied position of
the subtree, or whose index exceeds the `max` cutoff, keeps its value. -/
theorem flat_aux_frame (mx : Int) (t : BTree) : ∀ i s j,
    (j ∉ positions t i ∨ mx < (j : Int)) →
    (to_flat_array_aux mx t i s).1 j = s.1 j := by
  induction t with
  | nil => intro i s j _; rfl
  | node v l r ihl ihr =>
      intro i s j h
      obtain ⟨buf, mi⟩ := s
      have hl : j ∉ positions l (2 * i) ∨ mx < (j : Int) := by
        rcases h with h | h
        · left
          intro hc
          exact h (by
            simp only [positions, List.mem_cons, List.mem_append]
            right; left; exact hc)
        · right; exact h
      have hr : j ∉ positions r (2 * i + 1) ∨ mx < (j : Int) := by
        rcases h with h | h
        · left
          intro hc
          exact h (by
            simp only [positions, List.mem_cons, List.mem_append]
            right; right; exact hc)
        · right; exact h
      rw [flat_aux_node, ihr _ _ _ hr, ihl _ _ _ hl]
      by_cases hcond : (i : Int) ≤ mx
      · have hji : j ≠ i := by
          rcases h with h | h
          · intro hji
            exact h (by
              simp only [positions, List.mem_cons]
              left; exact hji)
          · intro hji; rw [hji] at h; omega
        simp [hcond, updBuf, hji]
      · simp [hcond]

/-- Value property of the helper on array-built subtrees: with `max ≥ n`,
every occupied cell of the subtree at `i` receives its array element. -/
theorem flat_aux_value (f : Nat → Int) (n : Nat) (mx : Int) (hmx : (n : Int) ≤ mx) :
    ∀ i, 1 ≤ i → ∀ s j, desc i j → j ≤ n →
      (to_flat_array_aux mx (init_complete_aux f n i) i s).1 j = f j := by
  intro i hi s j hd hj
  by_cases h : i ≤ n
  · rw [init_aux_node f n i hi h]
    obtain ⟨buf, mi⟩ := s
    have hwrite : (i : Int) ≤ mx := le_trans (by exact_mod_cast h) hmx
    rw [flat_aux_node]
    by_cases hji : j = i
    · subst hji
      rw [flat_aux_frame mx _ _ _ j (Or.inl (by
          intro hc
          have := mem_positions_ge _ _ _ hc
          omega)),
        flat_aux_frame mx _ _ _ j (Or.inl (by
          intro hc
          have := mem_positions_ge _ _ _ hc
          omega))]
      simp [hwrite, updBuf]
    · rcases desc_split hd hji with hdl | hdr
      · rw [flat_aux_frame mx _ _ _ j (Or.inl (by
            intro hc
            rw [mem_positions_init f n (2 * i + 1) (by omega) j] at hc
            exact desc_not_both hi hdl hc.1))]
        exact flat_aux_value f n mx hmx (2 * i) (by omega) _ j hdl hj
      · exact flat_aux_value f n mx hmx (2 * i + 1) (by omega) _ j hdr hj
  · exfalso
    have := desc_le hd
    omega
termination_by i => n + 1 - i
decreasing_by all_goals omega

/-- Folding `max` with a seed equals taking `max` of the seed and the fold
from zero. -/
theorem foldr_max_shift (l : List Nat) : ∀ c : Nat,
    l.foldr max c = max (l.foldr max 0) c := by
  induction l with
  | nil => intro c; simp
  | cons a l ih =>
      intro c
      simp only [List.foldr_cons, ih c]
      omega

/-- The by-reference `max_index` accumulator ends at the maximum of its
initial value and the largest occupied position of the subtree. -/
theorem flat_aux_max (mx : Int) (t : BTree) : ∀ i s,
    (to_flat_array_aux mx t i s).2 = max s.2 ((positions t i).foldr max 0) := by
  induction t with
  | nil =>
      intro i s
      show s.2 = max s.2 (List.foldr max 0 [])
      simp
  | node v l r ihl ihr =>
      intro i s
      obtain ⟨buf, mi⟩ := s
      rw [flat_aux_node, ihr, ihl]
      simp only [positions, List.foldr_cons, List.foldr_append]
      rw [foldr_max_shift (positions l (2 * i)) (List.foldr max 0 (positions r (2 * i + 1)))]
      have hmi : (if i > mi then i else mi) = max mi i := by
        by_cases h : i > mi <;> simp [h] <;> omega
      rw [hmi]
      omega

/-- The wrapper hands a non-empty tree to the helper at root index 1 with
`max_index` starting at 1. -/
theorem to_flat_eq_aux (t : BTree) (hne : t ≠ nil) (buf : Nat → Int) (mx : Int) :
    to_flat_array t buf mx = to_flat_array_aux mx t 1 (buf, 1) := by
  cases t with
  | nil => exact absurd rfl hne
  | node v l r => rfl

/-- C3: for every `n ≥ 0` and every 1-indexed array of `n` elements,
building a tree via array construction and then calling `to_flat_array`
with `max ≥ n` writes back the original values at indices `1..n` of the
output buffer. -/
theorem c3_round_trip (n : Nat) (f : Nat → Int) (mx : Int) (buf : Nat → Int)
    (j : Nat) (hmx : (n : Int) ≤ mx) (h1 : 1 ≤ j) (h2 : j ≤ n) :
    (to_flat_array (init_complete f n) buf mx).1 j = f j := by
  have hn : 1 ≤ n := le_trans h1 h2
  have hne : init_complete f n ≠ nil := by
    rw [init_complete, init_aux_node f n 1 (by omega) hn]
    simp
  rw [to_flat_eq_aux _ hne, init_complete]
  exact flat_aux_value f n mx hmx 1 (by omega) (buf, 1) j (desc_one h1) h2

/-- Witness for C3 at `n = 2`, `max = 3`, `j = 2`. -/
theorem c3_round_trip_witness :
    ((2 : Nat) : Int) ≤ 3 ∧ 1 ≤ 2 ∧ 2 ≤ 2 ∧
      (to_flat_array (init_complete (fun j => (j : Int) * 10) 2) (fun _ => 0) 3).1 2 =
        (fun j : Nat => (j : Int) * 10) 2 :=
  ⟨by norm_num, by omega, by omega,
    c3_round_trip 2 (fun j => (j : Int) * 10) 3 (fun _ => 0) 2 (by norm_num) (by omega)
      (by omega)⟩

/-- C4: for every tree (not only complete ones) and every value of `max`
(including zero or negative cutoffs), `to_flat_array` returns the maximum
complete-tree index over all occupied positions of the tree, and 0 for the
empty tree; the cutoff never affects this return value. -/
theorem c4_return_is_max_index (t : BTree) (buf : Nat → Int) (mx : Int) :
    (to_flat_array t buf mx).2 = (positions t 1).foldr max 0 := by
  cases t with
  | nil => rfl
  | node v l r =>
      rw [to_flat_eq_aux _ (by simp) buf mx, flat_aux_max]
      simp only [positions, List.foldr_cons]
      omega

/-- C9: frame property of `to_flat_array`: every buffer cell other than the
occupied positions `1 ≤ i ≤ max` keeps its prior value; in particular cell 0
and all cells beyond `max` are untouched. -/
theorem c9_frame (t : BTree) (buf : Nat → Int) (mx : Int) (j : Nat)
    (h : ¬(1 ≤ j ∧ (j : Int) ≤ mx ∧ j ∈ positions t 1)) :
    (to_flat_array t buf mx).1 j = buf j := by
  cases t with
  | nil => rfl
  | node v l r =>
      rw [to_flat_eq_aux _ (by simp) buf mx]
      apply flat_aux_frame
      by_cases h1 : j ∈ positions (node v l r) 1
      · right
        have hj1 : 1 ≤ j := mem_positions_ge _ _ _ h1
        have hj2 : ¬((j : Int) ≤ mx) := fun hc => h ⟨hj1, hc, h1⟩
        omega
      · left
        exact h1

/-- Witness for C9: a cell outside the occupied positions is unchanged. -/
theorem c9_frame_witness :
    ¬(1 ≤ 2 ∧ ((2 : Nat) : Int) ≤ 5 ∧ 2 ∈ positions (node 1 nil nil) 1) ∧
      (to_flat_array (node 1 nil nil) (fun j => (j : Int) + 100) 5).1 2 =
        (fun j : Nat => (j : Int) + 100) 2 :=
  ⟨by decide, c9_frame (node 1 nil nil) (fun j => (j : Int) + 100) 5 2 (by decide)⟩

/-! Height of the array-built tree. -/

/-- The two branches of `height` at a node collapse to one formula:
1 plus the larger child height (a leaf gives `1 + max 0 0 = 1`). -/
theorem height_node (v : Int) (l r : BTree) :
    height (node v l r) = 1 + max (height l) (height r) := by
  simp only [height]
  by_cases h : is_leaf (node v l r) = true
  · have hlr : l = nil ∧ r = nil := by
      simpa [is_leaf, Bool.and_eq_true, decide_eq_true_iff] using h
    rw [if_pos h, hlr.1, hlr.2]
    simp [height]
  · rw [if_neg h]
    by_cases hcmp : height l + 1 > height r + 1
    · rw [if_pos hcmp]; omega
    · rw [if_neg hcmp]; omega

/-- Heights of array-built subtrees are antitone in the root index: a
subtree rooted at a larger index is no taller. -/
theorem height_init_anti (f : Nat → Int) (n : Nat) : ∀ b a, 1 ≤ a → a ≤ b →
    height (init_complete_aux f n b) ≤ height (init_complete_aux f n a) := by
  intro b a ha hab
  by_cases hb : b ≤ n
  · rw [init_aux_node f n b (by omega) hb, init_aux_node f n a ha (by omega),
      height_node, height_node]
    have h1 := height_init_anti f n (2 * b) (2 * a) (by omega) (by omega)
    have h2 := height_init_anti f n (2 * b + 1) (2 * a) (by omega) (by omega)
    omega
  · rw [init_aux_nil f n b (by omega)]
    exact Nat.zero_le _
termination_by b => n + 1 - b
decreasing_by all_goals omega

/-- Height formula for the array-built subtree rooted at `i ≥ 1`:
the ceiling log of `n / i + 1` in base 2. -/
theorem height_init_eq (f : Nat → Int) (n : Nat) : ∀ i, 1 ≤ i →
    height (init_complete_aux f n i) = Nat.clog 2 (n / i + 1) := by
  intro i hi
  by_cases h : i ≤ n
  · rw [init_aux_node f n i hi h, height_node]
    have hanti := height_init_anti f n (2 * i + 1) (2 * i) (by omega) (by omega)
    have hl := height_init_eq f n (2 * i) (by omega)
    have hmax : max (height (init_complete_aux f n (2 * i)))
        (height (init_complete_aux f n (2 * i + 1))) =
        height (init_complete_aux f n (2 * i)) := by omega
    rw [hmax, hl]
    have hone : 1 ≤ n / i := (Nat.one_le_div_iff (by omega)).mpr h
    rw [Nat.clog_of_two_le (by norm_num) (by omega : 2 ≤ n / i + 1)]
    have hdiv : n / (2 * i) = n / i / 2 := by
      rw [Nat.div_div_eq_div_mul, Nat.mul_comm]
    have harg : (n / i + 1 + 2 - 1) / 2 = n / i / 2 + 1 := by omega
    rw [harg, hdiv]
    omega
  · rw [init_aux_nil f n i (by omega), Nat.div_eq_of_lt (by omega)]
    simp [height]
termination_by i => n + 1 - i
decreasing_by all_goals omega

/-- C6: the height of the tree built by array construction from `n`
elements is the ceiling of log2 of `n + 1`; in particular it is 0 for
`n = 0` and 1 for `n = 1`. -/
theorem c6_height (f : Nat → Int) (n : Nat) :
    height (init_complete f n) = Nat.clog 2 (n + 1) := by
  rw [init_complete, height_init_eq f n 1 (by omega), Nat.div_one]

/-- C5: for every `n ≥ 0` and every 1-indexed array of `n` elements, the
node count of the tree built by array construction equals `n`;
equivalently, the build places a node at position `i` exactly when
`1 ≤ i ≤ n`. -/
theorem c5_node_count (f : Nat → Int) (n : Nat) :
    node_count (init_complete f n) = n ∧
      (∀ j, j ∈ positions (init_complete f n) 1 ↔ (1 ≤ j ∧ j ≤ n)) :=
  ⟨node_count_init f n, mem_positions_init_one f n⟩

/-! Leaves of the array-built tree. -/

/-- An occupied position yields a non-null subtree. -/
theorem init_aux_ne_nil (f : Nat → Int) (n i : Nat) (h1 : 1 ≤ i) (h2 : i ≤ n) :
    init_complete_aux f n i ≠ nil := by
  rw [init_aux_node f n i h1 h2]
  simp

/-- The number of recorded leaf positions is the leaf count. -/
theorem length_leaf_positions (t : BTree) : ∀ i, (leaf_positions t i).length = leaf_count t := by
  induction t with
  | nil => intro i; simp [leaf_positions, leaf_count]
  | node v l r ihl ihr =>
      intro i
      simp only [leaf_positions, leaf_count]
      by_cases h : is_leaf (node v l r) = true
      · rw [if_pos h, if_pos h]
        simp
      · rw [if_neg h, if_neg h]
        simp [List.length_append, ihl, ihr]

/-- Leaf positions form a sublist of all positions. -/
theorem leaf_positions_sublist (t : BTree) : ∀ i, List.Sublist (leaf_positions t i) (positions t i) := by
  induction t with
  | nil => intro i; simp [leaf_positions, positions]
  | node v l r ihl ihr =>
      intro i
      simp only [leaf_positions, positions]
      by_cases h : is_leaf (node v l r) = true
      · rw [if_pos h]
        exact (List.nil_sublist _).cons₂ i
      · rw [if_neg h]
        exact ((ihl (2 * i)).append (ihr (2 * i + 1))).cons i

/-- Membership characterization for leaves: position `j` is a leaf of the
subtree built at `i ≥ 1` exactly when it is an occupied descendant of `i`
whose left child index `2j` falls beyond `n`. -/
theorem mem_leaf_positions_init (f : Nat → Int) (n : Nat) : ∀ i, 1 ≤ i → ∀ j,
    (j ∈ leaf_positions (init_complete_aux f n i) i ↔ (desc i j ∧ j ≤ n ∧ n < 2 * j)) := by
  intro i hi j
  by_cases h : i ≤ n
  · rw [init_aux_node f n i hi h]
    simp only [leaf_positions]
    by_cases h2 : 2 * i ≤ n
    · have hleaf : is_leaf (node (f i) (init_complete_aux f n (2 * i))
          (init_complete_aux f n (2 * i + 1))) = false := by
        simp [is_leaf, init_aux_ne_nil f n (2 * i) (by omega) h2]
      rw [if_neg (by simp [hleaf])]
      rw [List.mem_append,
        mem_leaf_positions_init f n (2 * i) (by omega) j,
        mem_leaf_positions_init f n (2 * i + 1) (by omega) j]
      constructor
      · rintro (⟨hd, hj, hlj⟩ | ⟨hd, hj, hlj⟩)
        · exact ⟨desc_of_desc_left hd, hj, hlj⟩
        · exact ⟨desc_of_desc_right hd, hj, hlj⟩
      · rintro ⟨hd, hj, hlj⟩
        have hji : j ≠ i := by
          intro hji
          omega
        rcases desc_split hd hji with h1 | h1
        · left; exact ⟨h1, hj, hlj⟩
        · right; exact ⟨h1, hj, hlj⟩
    · have hleaf : is_leaf (node (f i) (init_complete_aux f n (2 * i))
          (init_complete_aux f n (2 * i + 1))) = true := by
        rw [init_aux_nil f n (2 * i) (by omega), init_aux_nil f n (2 * i + 1) (by omega)]
        simp [is_leaf]
      rw [if_pos (by simp [hleaf]), List.mem_singleton]
      constructor
      · rintro rfl
        exact ⟨desc_refl j, h, by omega⟩
      · rintro ⟨hd, hj, hlj⟩
        by_cases hji : j = i
        · exact hji
        · exfalso
          rcases desc_split hd hji with h1 | h1
          · have := desc_le h1; omega
          · have := desc_le h1; omega
  · rw [init_aux_nil f n i (by omega)]
    simp only [leaf_positions, List.not_mem_nil, false_iff]
    rintro ⟨hd, hj, _⟩
    have := desc_le hd
    omega
termination_by i => n + 1 - i
decreasing_by all_goals omega

/-- C7: the leaf count of the tree built by array construction from `n`
elements is `1 + (n - 1) / 2` for `n > 0` and 0 for `n = 0`. -/
theorem c7_leaf_count (f : Nat → Int) (n : Nat) :
    leaf_count (init_complete f n) = if n = 0 then 0 else 1 + (n - 1) / 2 := by
  have hsub : List.Sublist (leaf_positions (init_complete f n) 1) (positions (init_complete f n) 1) :=
    leaf_positions_sublist (init_complete f n) 1
  have hnd : (leaf_positions (init_complete f n) 1).Nodup :=
    (nodup_positions_init f n 1 (by omega)).sublist hsub
  have hmem : ∀ j, j ∈ leaf_positions (init_complete f n) 1 ↔ (n / 2 + 1 ≤ j ∧ j ≤ n) := by
    intro j
    rw [init_complete, mem_leaf_positions_init f n 1 (by omega) j]
    constructor
    · rintro ⟨hd, hj, hlj⟩
      have := desc_le hd
      omega
    · rintro ⟨h1, h2⟩
      exact ⟨desc_one (by omega), h2, by omega⟩
  have hfin : (leaf_positions (init_complete f n) 1).toFinset = Finset.Icc (n / 2 + 1) n := by
    ext j
    rw [List.mem_toFinset, hmem j, Finset.mem_Icc]
  have hcard := List.toFinset_card_of_nodup hnd
  rw [hfin, Nat.card_Icc] at hcard
  have hlen := length_leaf_positions (init_complete f n) 1
  by_cases hn0 : n = 0
  · rw [if_pos hn0]
    omega
  · rw [if_neg hn0]
    omega

/-! Traversals. -/

/-- Running the preorder visitor is folding it over the reference preorder
sequence. -/
theorem preorder_eq_foldl {σ : Type} (f : Int → σ → σ) :
    ∀ t s, preorder f t s = (preorderSeq t).foldl (fun s v => f v s) s := by
  intro t
  induction t with
  | nil => intro s; rfl
  | node v l r ihl ihr =>
      intro s
      simp [preorder, preorderSeq, List.foldl_append, ihl, ihr]

/-- Running the inorder visitor is folding it over the reference inorder
sequence. -/
theorem inorder_eq_foldl {σ : Type} (f : Int → σ → σ) :
    ∀ t s, inorder f t s = (inorderSeq t).foldl (fun s v => f v s) s := by
  intro t
  induction t with
  | nil => intro s; rfl
  | node v l r ihl ihr =>
      intro s
      simp [inorder, inorderSeq, List.foldl_append, ihl, ihr]

/-- Running the postorder visitor is folding it over the reference
postorder sequence. -/
theorem postorder_eq_foldl {σ : Type} (f : Int → σ → σ) :
    ∀ t s, postorder f t s = (postorderSeq t).foldl (fun s v => f v s) s := by
  intro t
  induction t with
  | nil => intro s; rfl
  | node v l r ihl ihr =>
      intro s
      simp [postorder, postorderSeq, List.foldl_append, ihl, ihr]

/-- Each reference sequence has exactly one entry per node. -/
theorem seq_lengths (t : BTree) :
    (preorderSeq t).length = node_count t ∧
      (inorderSeq t).length = node_count t ∧
      (postorderSeq t).length = node_count t := by
  induction t with
  | nil => simp [preorderSeq, inorderSeq, postorderSeq, node_count]
  | node v l r ihl ihr =>
      simp only [preorderSeq, inorderSeq, postorderSeq, node_count, List.length_cons,
        List.length_append, List.length_singleton, List.length_nil] at *
      omega

/-- The example tree of the spec: elements `[_, 10, 20, 30]` produce root
10 with left child 20 and right child 30. -/
theorem init_example :
    init_complete (fun i => 10 * (i : Int)) 3 =
      node 10 (node 20 nil nil) (node 30 nil nil) := by
  have h4 : init_complete_aux (fun i => 10 * (i : Int)) 3 4 = nil :=
    init_aux_nil _ 3 4 (by norm_num)
  have h5 : init_complete_aux (fun i => 10 * (i : Int)) 3 5 = nil :=
    init_aux_nil _ 3 5 (by norm_num)
  have h6 : init_complete_aux (fun i => 10 * (i : Int)) 3 6 = nil :=
    init_aux_nil _ 3 6 (by norm_num)
  have h7 : init_complete_aux (fun i => 10 * (i : Int)) 3 7 = nil :=
    init_aux_nil _ 3 7 (by norm_num)
  have h2 : init_complete_aux (fun i => 10 * (i : Int)) 3 2 = node 20 nil nil := by
    rw [init_aux_node _ 3 2 (by norm_num) (by norm_num)]
    norm_num [h4, h5]
  have h3 : init_complete_aux (fun i => 10 * (i : Int)) 3 3 = node 30 nil nil := by
    rw [init_aux_node _ 3 3 (by norm_num) (by norm_num)]
    norm_num [h6, h7]
  rw [init_complete, init_aux_node _ 3 1 (by norm_num) (by norm_num)]
  norm_num [h2, h3]

/-- C8: each traversal applies the caller-supplied visitor once per node,
in the stated order: the run of the visitor is exactly the fold over the
reference sequence (node-left-right for preorder, left-node-right for
inorder, left-right-node for postorder), each reference sequence has one
entry per node, and the tree built from `[_, 10, 20, 30]` has preorder
`[10, 20, 30]` and inorder `[20, 10, 30]`. -/
theorem c8_traversals :
    (∀ (σ : Type) (f : Int → σ → σ) (t : BTree) (s : σ),
        preorder f t s = (preorderSeq t).foldl (fun s v => f v s) s ∧
        inorder f t s = (inorderSeq t).foldl (fun s v => f v s) s ∧
        postorder f t s = (postorderSeq t).foldl (fun s v => f v s) s) ∧
    (∀ t : BTree,
        (preorderSeq t).length = node_count t ∧
        (inorderSeq t).length = node_count t ∧
        (postorderSeq t).length = node_count t) ∧
    preorderSeq (init_complete (fun i => 10 * (i : Int)) 3) = [10, 20, 30] ∧
    inorderSeq (init_complete (fun i => 10 * (i : Int)) 3) = [20, 10, 30] := by
  refine ⟨fun σ f t s => ⟨preorder_eq_foldl f t s, inorder_eq_foldl f t s,
    postorder_eq_foldl f t s⟩, seq_lengths, ?_, ?_⟩
  · rw [init_example]
    rfl
  · rw [init_example]
    rfl

/-! Structural equality. -/

/-- Two booleans agreeing as propositions are equal. -/
theorem bool_eq_of_iff {a b : Bool} (h : a = true ↔ b = true) : a = b := by
  cases a <;> cases b <;> simp_all

/-- The null pre-check of the `.cpp` `operator==` is subsumed by `compare`:
the operator always returns exactly what `compare` returns. -/
theorem eqOp_cpp_eq_compare (a b : BTree) : eqOp_cpp a b = compare_trees a b := by
  cases a <;> cases b <;> simp [eqOp_cpp, compare_trees]

/-- The `compare` helper decides structural equality: identical shape with equal
corresponding elements is literal equality of the modelled trees. -/
theorem compare_trees_iff : ∀ a b, compare_trees a b = true ↔ a = b := by
  intro a
  induction a with
  | nil => intro b; cases b <;> simp [compare_trees]
  | node v l r ihl ihr =>
      intro b
      cases b with
      | nil => simp [compare_trees]
      | node w bl br =>
          simp only [compare_trees]
          by_cases hv : v = w
          · rw [if_pos hv]
            simp [Bool.and_eq_true, ihl, ihr, hv]
          · rw [if_neg hv]
            simp [hv]

/-- The element-comparison loop succeeds exactly when all cells `1..n`
agree. -/
theorem allEq_iff (e1 e2 : Nat → Int) : ∀ n,
    (allEq e1 e2 n = true ↔ ∀ i, 1 ≤ i → i ≤ n → e1 i = e2 i) := by
  intro n
  induction n with
  | zero => simp [allEq]; omega
  | succ k ih =>
      simp only [allEq, Bool.and_eq_true, decide_eq_true_iff, ih]
      constructor
      · rintro ⟨hall, hlast⟩ i h1 h2
        by_cases hik : i = k + 1
        · rw [hik]; exact hlast
        · exact hall i h1 (by omega)
      · intro h
        exact ⟨fun i h1 h2 => h i h1 (by omega), h (k + 1) (by omega) (by omega)⟩

/-- Running `compare` on two array-built subtrees at the same root index succeeds
exactly when the arrays agree on all occupied descendants. -/
theorem compare_init (f g : Nat → Int) (n : Nat) : ∀ i, 1 ≤ i →
    (compare_trees (init_complete_aux f n i) (init_complete_aux g n i) = true ↔
      ∀ j, desc i j → j ≤ n → f j = g j) := by
  intro i hi
  by_cases h : i ≤ n
  · rw [init_aux_node f n i hi h, init_aux_node g n i hi h]
    simp only [compare_trees]
    by_cases hfg : f i = g i
    · rw [if_pos hfg]
      rw [Bool.and_eq_true, compare_init f g n (2 * i) (by omega),
        compare_init f g n (2 * i + 1) (by omega)]
      constructor
      · rintro ⟨hL, hR⟩ j hd hj
        by_cases hji : j = i
        · rw [hji]; exact hfg
        · rcases desc_split hd hji with h1 | h1
          · exact hL j h1 hj
          · exact hR j h1 hj
      · intro hall
        exact ⟨fun j hd hj => hall j (desc_of_desc_left hd) hj,
          fun j hd hj => hall j (desc_of_desc_right hd) hj⟩
    · rw [if_neg hfg]
      simp only [Bool.false_eq_true, false_iff]
      intro hall
      exact hfg (hall i (desc_refl i) h)
  · rw [init_aux_nil f n i (by omega), init_aux_nil g n i (by omega)]
    simp only [compare_trees, true_iff]
    intro j hd hj
    have := desc_le hd
    omega
termination_by i => n + 1 - i
decreasing_by all_goals omega

/-- Flattening an array-built tree with `max = n` restores the array on
cells `1..n`, whatever the buffer's initial contents. -/
theorem flat_init_value (f : Nat → Int) (n : Nat) (buf : Nat → Int) (j : Nat)
    (h1 : 1 ≤ j) (h2 : j ≤ n) :
    (to_flat_array (init_complete f n) buf (n : Int)).1 j = f j := by
  have hne : init_complete f n ≠ nil := by
    rw [init_complete]
    exact init_aux_ne_nil f n 1 (by omega) (by omega)
  rw [to_flat_eq_aux _ hne, init_complete]
  exact flat_aux_value f n (n : Int) (le_refl _) 1 (by omega) (buf, 1) j (desc_one h1) h2

/-- On array-built (hence complete) trees, the flat-array `operator==` of
`BinaryTree.h` agrees with the `compare`-based `operator==` of
`BinaryTree.cpp`, regardless of the uninitialized buffer contents. -/
theorem eqOp_h_init_eq_cpp (f g : Nat → Int) (n m : Nat) (b1 b2 : Nat → Int) :
    eqOp_h (init_complete f n) (init_complete g m) b1 b2 =
      eqOp_cpp (init_complete f n) (init_complete g m) := by
  rw [eqOp_cpp_eq_compare]
  have hca := node_count_init f n
  have hcb := node_count_init g m
  by_cases hnm : n = m
  · subst hnm
    simp only [eqOp_h, hca, hcb]
    rw [if_neg (by omega)]
    apply bool_eq_of_iff
    rw [allEq_iff]
    have hcmp : compare_trees (init_complete f n) (init_complete g n) = true ↔
        (∀ j, desc 1 j → j ≤ n → f j = g j) := compare_init f g n 1 (by omega)
    rw [hcmp]
    constructor
    · intro hall j hd hj
      have h1 : 1 ≤ j := desc_le hd
      have := hall j h1 hj
      rwa [flat_init_value f n b1 j h1 hj, flat_init_value g n b2 j h1 hj] at this
    · intro hall i h1 h2
      rw [flat_init_value f n b1 i h1 h2, flat_init_value g n b2 i h1 h2]
      exact hall i (desc_one h1) h2
  · simp only [eqOp_h, hca, hcb]
    rw [if_pos hnm]
    cases hc : compare_trees (init_complete f n) (init_complete g m) with
    | false => rfl
    | true =>
        exfalso
        have heq := (compare_trees_iff _ _).mp hc
        have hcount := congrArg node_count heq
        rw [hca, hcb] at hcount
        exact hnm hcount

/-- C1 counterexample: two trees of equal node count but different shape —
`node 1 (node 2 nil nil) nil` versus `node 1 nil (node 2 nil nil)` — are
reported equal by the flat-array `operator==` of `BinaryTree.h` when the
uninitialized buffer cell happens to hold the matching value 2, so that
operator does not decide "identical shape and equal elements". -/
theorem c1_counterexample :
    eqOp_h (node 1 (node 2 nil nil) nil) (node 1 nil (node 2 nil nil))
        (fun _ => 2) (fun _ => 2) = true ∧
      node 1 (node 2 nil nil) nil ≠ node 1 nil (node 2 nil nil) :=
  ⟨by decide, by decide⟩

/-- C1 (amended): the `compare`-based `operator==` of `BinaryTree.cpp`
returns true iff the trees have identical shape with equal corresponding
elements (literal equality of the modelled trees), and both `operator!=`s
return the negation of the corresponding `operator==`; the flat-array
`operator==` of `BinaryTree.h` guarantees this only on complete trees
(those produced by array construction), where it agrees with the
`compare`-based operator for every buffer contents. -/
theorem c1_equality_ops :
    (∀ a b : BTree, eqOp_cpp a b = true ↔ a = b) ∧
    (∀ a b : BTree, neOp_cpp a b = ! eqOp_cpp a b) ∧
    (∀ (a b : BTree) (b1 b2 : Nat → Int), neOp_h a b b1 b2 = ! eqOp_h a b b1 b2) ∧
    (∀ (f g : Nat → Int) (n m : Nat) (b1 b2 : Nat → Int),
      eqOp_h (init_complete f n) (init_complete g m) b1 b2 =
        eqOp_cpp (init_complete f n) (init_complete g m)) := by
  refine ⟨fun a b => ?_, fun a b => rfl, fun a b b1 b2 => rfl, eqOp_h_init_eq_cpp⟩
  rw [eqOp_cpp_eq_compare]
  exact compare_trees_iff a b

/-- Evaluation of the flat-array copy on a non-complete source: the right
child is lost (its index 3 exceeds `max = 2`) and the rebuilt complete tree
has a left child holding the buffer junk 7. -/
theorem copy_h_example :
    copy_h (node 1 nil (node 2 nil nil)) (fun _ => 7) = node 1 (node 7 nil nil) nil := by
  have h2 : node_count (node 1 nil (node 2 nil nil)) = 2 := rfl
  simp only [copy_h, h2]
  rw [init_complete]
  rw [init_aux_node _ 2 1 (by norm_num) (by norm_num)]
  norm_num
  rw [init_aux_node _ 2 2 (by norm_num) (by norm_num), init_aux_nil _ 2 3 (by norm_num)]
  norm_num
  rw [init_aux_nil _ 2 4 (by norm_num), init_aux_nil _ 2 5 (by norm_num)]
  exact ⟨by decide, by decide⟩

/-- C2 counterexample: copying the non-complete tree
`node 1 nil (node 2 nil nil)` through the flat-array copy constructor of
`BinaryTree.h` yields a tree that is not equal to the source under either
`operator==` (the copy has a left child where the source has a right
child). -/
theorem c2_counterexample :
    eqOp_cpp (copy_h (node 1 nil (node 2 nil nil)) (fun _ => 7))
        (node 1 nil (node 2 nil nil)) = false ∧
      eqOp_h (copy_h (node 1 nil (node 2 nil nil)) (fun _ => 7))
        (node 1 nil (node 2 nil nil)) (fun _ => 8) (fun _ => 9) = false := by
  rw [copy_h_example]
  exact ⟨by decide, by decide⟩

/-- C2 (amended): for every complete source tree — any tree produced by
array construction — the flat-array copy constructor and assignment
operator of `BinaryTree.h` reproduce the source exactly, so the result
compares equal to the source under both `operator==` implementations,
whatever the contents of the intermediate and comparison buffers; for
non-complete sources this fails. -/
theorem c2_copy_assign (f : Nat → Int) (n : Nat) (buf b1 b2 : Nat → Int) (a : BTree) :
    copy_h (init_complete f n) buf = init_complete f n ∧
      assign_h a (init_complete f n) buf = init_complete f n ∧
      eqOp_cpp (copy_h (init_complete f n) buf) (init_complete f n) = true ∧
      eqOp_h (copy_h (init_complete f n) buf) (init_complete f n) b1 b2 = true ∧
      eqOp_cpp (assign_h a (init_complete f n) buf) (init_complete f n) = true ∧
      eqOp_h (assign_h a (init_complete f n) buf) (init_complete f n) b1 b2 = true := by
  have hkey : copy_h (init_complete f n) buf = init_complete f n := by
    simp only [copy_h, node_count_init]
    exact init_aux_congr _ f n 1 (fun j h1 h2 => flat_init_value f n buf j h1 h2)
  have hkey2 : assign_h a (init_complete f n) buf = init_complete f n := hkey
  have hrefl : eqOp_cpp (init_complete f n) (init_complete f n) = true := by
    rw [eqOp_cpp_eq_compare]
    exact (compare_trees_iff _ _).mpr rfl
  have hreflh : eqOp_h (init_complete f n) (init_complete f n) b1 b2 = true := by
    rw [eqOp_h_init_eq_cpp f f n n b1 b2]
    exact hrefl
  exact ⟨hkey, hkey2, by rw [hkey]; exact hrefl, by rw [hkey]; exact hreflh,
    by rw [hkey2]; exact hrefl, by rw [hkey2]; exact hreflh⟩

/-- C10 counterexample: on the non-complete pair
`node 1 (node 2 nil nil) nil` and `node 1 nil (node 2 nil nil)` the
flat-array `operator==` of `BinaryTree.h` (with buffer junk 2) returns
true while the `compare`-based `operator==` of `BinaryTree.cpp` returns
false, so the two implementations are not equivalent on all trees. -/
theorem c10_counterexample :
    eqOp_h (node 1 (node 2 nil nil) nil) (node 1 nil (node 2 nil nil))
        (fun _ => 2) (fun _ => 2) = true ∧
      eqOp_cpp (node 1 (node 2 nil nil) nil) (node 1 nil (node 2 nil nil)) = false :=
  ⟨by decide, by decide⟩

/-- C10 (amended): the two `operator==` implementations agree on complete
trees: for every pair of array-built trees and arbitrary buffer contents,
the flat-array-based `operator==` of `BinaryTree.h` returns the same
result as the recursive `compare`-based `operator==` of `BinaryTree.cpp`. -/
theorem c10_equiv_on_complete (f g : Nat → Int) (n m : Nat) (b1 b2 : Nat → Int) :
    eqOp_h (init_complete f n) (init_complete g m) b1 b2 =
      eqOp_cpp (init_complete f n) (init_complete g m) :=
  eqOp_h_init_eq_cpp f g n m b1 b2
